import Mathlib

/-!
Verification of the VCD waveform-viewer core (VCD parser, bus expander,
hover resolver) against its natural-language specification.

The definitions below are a shallow embedding of the TypeScript sources:

* `src/src/utils/vcdParser.ts` — `parseTimescale`, `parseVCD` with its
  chunked line loop (`processChunk`) and the multi-bit post-processing.
* `src/src/components/WaveformViewer.tsx` — the hover value resolution
  inside `handleMouseMove` (lines 434-452).

Modelling conventions for JavaScript semantics:

* A JS number that can be `NaN` is modelled as `Option Int` with `none`
  playing the role of `NaN` (timestamps and widths come from `parseInt`
  and are integral otherwise; we idealise away double-precision rounding
  of very large integers).
* A JS value that can be `undefined` where a string is expected is
  modelled as `Option String`.
* A JS object used as a string-keyed map is modelled as an association
  list with insert-or-replace-in-place semantics (property insertion
  order; the special enumeration order of integer-like keys is not
  modelled — no claim depends on the order of the resulting signal list).
* The `TypeError` that JS raises when a property of `undefined` is read
  is modelled by returning `none` from the whole computation
  (`parseVCD : String → Option VCDData`, `none` = the promise rejects).
* `Number(...)` applied to the bit-range bounds is modelled for integer
  syntax (optional sign, decimal or `0x` hexadecimal digits, and the
  empty string giving `0`); non-integral numeric literals are mapped to
  `NaN`, which no claim exercises.
-/

/-! ### JavaScript string primitives -/

/-- Whitespace characters recognised by the JS `\s` class and `trim`
(the ASCII ones; exotic unicode space codepoints are not modelled). -/
def isWsChar (c : Char) : Bool :=
  c = ' ' || c = '\t' || c = '\n' || c = '\r' || c = '\x0b' || c = '\x0c'

/-- The JS `\w` word-character class: `[A-Za-z0-9_]`. -/
def isWordChar (c : Char) : Bool :=
  c.isAlphanum || c = '_'

/-- `String.prototype.trim` on a character list. -/
def listTrim (cs : List Char) : List Char :=
  ((cs.dropWhile isWsChar).reverse.dropWhile isWsChar).reverse

/-- `str.trim()`. -/
def jsTrim (s : String) : String :=
  String.mk (listTrim s.toList)

/-- `a.startsWith(p)`. -/
def strStartsWith (s p : String) : Bool :=
  p.toList.isPrefixOf s.toList

/-- `s.includes(c)` for a single-character needle. -/
def strContains (s : String) (c : Char) : Bool :=
  s.toList.contains c

/-- Split at every element satisfying `p`, dropping the separators and
keeping empty pieces. -/
def splitOnPred (p : Char → Bool) : List Char → List (List Char)
  | [] => [[]]
  | a :: as =>
    if p a then [] :: splitOnPred p as
    else
      match splitOnPred p as with
      | [] => [[a]]
      | t :: ts => (a :: t) :: ts

/-- `s.split(sep)` for a single-character separator (keeps empty pieces,
like the JS string-separator `split`). -/
def splitOnChar (c : Char) (cs : List Char) : List (List Char) :=
  splitOnPred (fun a => a = c) cs

/-- `vcdContent.split("\n")`. -/
def splitLines (s : String) : List String :=
  (splitOnChar '\n' s.toList).map String.mk

/-- Collapse the empty pieces that per-character splitting leaves inside
a whitespace run, keeping the boundary pieces: the JS regex split
`s.split(/\s+/)` keeps a leading empty piece (leading run), a trailing
empty piece (trailing run), and no interior empties. -/
def collapseEmpties : List (List Char) → List (List Char)
  | [] => [[]]
  | [p] => [p]
  | p :: rest =>
    p :: ((rest.dropLast.filter (fun q => !q.isEmpty)) ++ [rest.getLastD []])

/-- `line.split(/\s+/)`. -/
def jsSplitWs (s : String) : List String :=
  (collapseEmpties (splitOnPred isWsChar s.toList)).map String.mk

/-- Numeric value of a decimal digit list. -/
def decVal (cs : List Char) : Nat :=
  cs.foldl (fun a c => a * 10 + (c.toNat - '0'.toNat)) 0

def isHexDigit (c : Char) : Bool :=
  c.isDigit || ('a' ≤ c && c ≤ 'f') || ('A' ≤ c && c ≤ 'F')

def hexDigitVal (c : Char) : Nat :=
  if c.isDigit then c.toNat - '0'.toNat
  else if 'a' ≤ c && c ≤ 'f' then c.toNat - 'a'.toNat + 10
  else c.toNat - 'A'.toNat + 10

/-- Numeric value of a hexadecimal digit list. -/
def hexVal (cs : List Char) : Nat :=
  cs.foldl (fun a c => a * 16 + hexDigitVal c) 0

/-- `parseInt(s)` (radix 10 unless the `0x`/`0X` prefix selects 16):
skip leading whitespace, optional sign, then the longest digit prefix;
`none` models the `NaN` result when no digit follows. -/
def jsParseInt (s : String) : Option Int :=
  let t := s.toList.dropWhile isWsChar
  let (sgn, t2) : Int × List Char :=
    match t with
    | '-' :: r => (-1, r)
    | '+' :: r => (1, r)
    | _ => (1, t)
  match t2 with
  | '0' :: x :: r =>
    if x = 'x' || x = 'X' then
      let hs := r.takeWhile isHexDigit
      if hs.isEmpty then none else some (sgn * (hexVal hs : Int))
    else
      let ds := t2.takeWhile Char.isDigit
      some (sgn * (decVal ds : Int))
  | _ =>
    let ds := t2.takeWhile Char.isDigit
    if ds.isEmpty then none else some (sgn * (decVal ds : Int))

/-- `Number(s)` restricted to integral syntax: the whole (trimmed) string
must be an optionally signed decimal numeral, an unsigned `0x` hexadecimal
numeral, or empty (which JS converts to `0`). Anything else — including
non-integral numerals, which no claim exercises — is `NaN` (`none`). -/
def jsNumber (s : String) : Option Int :=
  let t := listTrim s.toList
  if t.isEmpty then some 0
  else
    match t with
    | '0' :: 'x' :: r =>
      if !r.isEmpty && r.all isHexDigit then some (hexVal r : Int) else none
    | '0' :: 'X' :: r =>
      if !r.isEmpty && r.all isHexDigit then some (hexVal r : Int) else none
    | _ =>
      let (sgn, t2) : Int × List Char :=
        match t with
        | '-' :: r => (-1, r)
        | '+' :: r => (1, r)
        | _ => (1, t)
      if !t2.isEmpty && t2.all Char.isDigit then some (sgn * (decVal t2 : Int))
      else none

/-- `Math.max` on possibly-`NaN` numbers (`NaN` is absorbing). -/
def jsMaxN (a b : Option Int) : Option Int :=
  match a, b with
  | some x, some y => some (max x y)
  | _, _ => none

/-- `v[idx]` on a JS string: a single-character string when `idx` is an
in-range integer index, `undefined` (`none`) otherwise. -/
def jsCharAt (v : String) (idx : Int) : Option String :=
  if 0 ≤ idx ∧ idx < (v.toList.length : Int) then
    some (String.mk ((v.toList.drop idx.toNat).take 1))
  else none

/-! ### Timescale resolver (`parseTimescale`, vcdParser.ts lines 14-23) -/

/-- The magnitude table `{ "1": 0, "10": 1, "100": 2 }[m[1]] || 0`. -/
def tsMag (cs : List Char) : Int :=
  if cs = ['1'] then 0
  else if cs = ['1', '0'] then 1
  else if cs = ['1', '0', '0'] then 2
  else 0

/-- The unit table `{ s: 0, ms: -3, us: -6, ns: -9, ps: -12, fs: -15 }[m[2]] || 0`. -/
def tsUnit (cs : List Char) : Int :=
  if cs = ['s'] then 0
  else if cs = ['m', 's'] then -3
  else if cs = ['u', 's'] then -6
  else if cs = ['n', 's'] then -9
  else if cs = ['p', 's'] then -12
  else if cs = ['f', 's'] then -15
  else 0

/-- `parseTimescale(str)`: match `str.trim()` against `^(\d+)\s*(\w+)$`
(with the regex engine's greedy backtracking: when the trimmed string is
all digits, the final digit is surrendered to the `\w+` group) and add
the two table lookups; `0` when the regex fails. -/
def parseTimescale (str : String) : Int :=
  let s := listTrim str.toList
  let ds := s.takeWhile Char.isDigit
  let rest := s.drop ds.length
  if ds.isEmpty then 0
  else if rest.isEmpty then
    if 2 ≤ ds.length then tsMag ds.dropLast + tsUnit (ds.drop (ds.length - 1))
    else 0
  else
    let ws := rest.takeWhile isWsChar
    let w := rest.drop ws.length
    if !w.isEmpty && w.all isWordChar then tsMag ds + tsUnit w
    else 0

/-! ### Parser data model (vcdParser.ts lines 1-12) -/

/-- A parsed signal (`interface Signal`). `name` is `Option String`
because a malformed `$var` line stores the JS `undefined` there; `width`
is `Option Int` with `none` for `NaN`; wave times are `Option Int`
(`NaN`-able) and wave values `Option String` (`undefined`-able, via the
bit expansion's out-of-range string indexing). -/
structure Signal where
  name : Option String
  width : Option Int
  wave : List (Option Int × Option String)
  hierarchy : List (Option String)
deriving DecidableEq

/-- The document produced by the parser (`interface VCDData`). -/
structure VCDData where
  signals : List Signal
  timescale : ℚ
  maxCycles : Option Int
deriving DecidableEq

/-- The JS object `signals` keyed by identifier, in property-insertion
order. -/
abbrev SigMap := List (String × Signal)

/-- `signals[id]` lookup. -/
def sigLookup (m : SigMap) (k : String) : Option Signal :=
  (m.find? (fun e => e.1 = k)).map (·.2)

/-- `signals[id] = sig`: replace in place when the key exists, else
append (JS property-insertion order). -/
def mapInsert (m : SigMap) (k : String) (v : Signal) : SigMap :=
  if m.any (fun e => e.1 = k) then
    m.map (fun e => if e.1 = k then (k, v) else e)
  else m ++ [(k, v)]

/-- `if (signals[id]) { signals[id].wave.push([currentTime, value]) }`. -/
def pushChange (m : SigMap) (k : String) (t : Option Int) (v : Option String) : SigMap :=
  if (sigLookup m k).isSome then
    m.map (fun e =>
      if e.1 = k then (e.1, { e.2 with wave := e.2.wave ++ [(t, v)] }) else e)
  else m

/-- The mutable state threaded through `processChunk`. -/
structure ParserState where
  signals : SigMap
  currentTime : Option Int
  timescale : Int
  maxTime : Option Int
  currentScope : List (Option String)
deriving DecidableEq

def initState : ParserState :=
  { signals := [], currentTime := some 0, timescale := 0
    maxTime := some 0, currentScope := [] }

/-- The test `line.match(/^[01zx]\S+/i)`: first character in
`[01zxZX]`, followed by at least one non-whitespace character. -/
def scalarMatch (line : String) : Bool :=
  match line.toList with
  | c0 :: c1 :: _ =>
    (c0 = '0' || c0 = '1' || c0 = 'z' || c0 = 'x' || c0 = 'Z' || c0 = 'X')
      && !isWsChar c1
  | _ => false

/-- One iteration of the `for` loop in `processChunk`
(vcdParser.ts lines 36-72): dispatch on the trimmed line. -/
def stepLine (st : ParserState) (rawLine : String) : ParserState :=
  let line := jsTrim rawLine
  if strStartsWith line "$var" then
    let parts := jsSplitWs line
    let id := parts.getD 3 "undefined"
    let sig : Signal :=
      { name := parts.get? 4, width := (parts.get? 2).bind jsParseInt
        wave := [], hierarchy := st.currentScope }
    { st with signals := mapInsert st.signals id sig }
  else if strStartsWith line "$timescale" then
    let parts := jsSplitWs line
    if 1 < parts.length then
      { st with timescale := parseTimescale (parts.getD 1 "") }
    else st
  else if strStartsWith line "$scope" then
    let parts := jsSplitWs line
    { st with currentScope := st.currentScope ++ [parts.get? 2] }
  else if strStartsWith line "$upscope" then
    { st with currentScope := st.currentScope.dropLast }
  else if strStartsWith line "#" then
    let t := jsParseInt (String.mk (line.toList.drop 1))
    { st with currentTime := t, maxTime := jsMaxN st.maxTime t }
  else if scalarMatch line then
    let v := String.mk (line.toList.take 1)
    let id := String.mk (line.toList.drop 1)
    { st with signals := pushChange st.signals id st.currentTime (some v) }
  else if strStartsWith line "b" then
    let toks := jsSplitWs (String.mk (line.toList.drop 1))
    let v := toks.getD 0 ""
    let id := toks.getD 1 "undefined"
    { st with signals := pushChange st.signals id st.currentTime (some v) }
  else st

/-- A straight-line pass over a list of lines. -/
def runLines (st : ParserState) (lines : List String) : ParserState :=
  lines.foldl stepLine st

/-- The chunked loop of `processChunk`: process `c + 1` lines, then
recurse on the rest (the `+ 1` encodes that the real chunk size, 10,000,
is at least one, which is what makes the loop terminate). -/
def processChunk (c : Nat) (st : ParserState) (lines : List String) : ParserState :=
  if lines.isEmpty then st
  else processChunk c (runLines st (lines.take (c + 1))) (lines.drop (c + 1))
termination_by lines.length
decreasing_by
  simp_wf
  cases lines with
  | nil => simp_all
  | cons a as => simp [List.length_drop]

/-! ### Post-processing: bus expansion and document assembly
(vcdParser.ts lines 76-105) -/

/-- The greedy regex capture `signal.name.match(/\[(.+)\])/?.[1]` … the
last `]` whose index leaves at least one captured character after the
leftmost workable `[`. -/
def lastRBracketIdx (cs : List Char) : Option Nat :=
  match cs.reverse.findIdx? (fun c => c = ']') with
  | some j => some (cs.length - 1 - j)
  | none => none

/-- `name.match(/\[(.+)\])/?.[1]`: find the first `[` that is followed,
at distance at least two, by a `]`; capture greedily up to the last `]`.
(The name cannot contain a newline — it is a whitespace-split token — so
`.` matching any character is faithful.) -/
def bracketCapture : List Char → Option (List Char)
  | [] => none
  | c :: rest =>
    if c = '[' then
      match lastRBracketIdx rest with
      | some q => if 1 ≤ q then some (rest.take q) else bracketCapture rest
      | none => bracketCapture rest
    else bracketCapture rest

/-- The synthetic per-bit name `` `${baseName}[${i}]` ``. -/
def bitKey (base : String) (i : Int) : String :=
  base ++ "[" ++ toString i ++ "]"

/-- `signal.wave.map(([time, value]) => [time, value[high - i]])`.
(A `none` wave value would make the JS indexing throw; scan-produced
waves always carry defined values, so the `Option.bind` is exact on
every reachable input.) -/
def mkBitWave (wave : List (Option Int × Option String)) (hi i : Int) :
    List (Option Int × Option String) :=
  wave.map (fun e => (e.1, e.2.bind (fun v => jsCharAt v (hi - i))))

/-- The integers `low, low+1, …, high` walked by the expansion loop. -/
def intRange (lo hi : Int) : List Int :=
  (List.range (hi + 1 - lo).toNat).map (fun k => lo + Int.ofNat k)

/-- `signal.width > 1` on a possibly-`NaN` width (`NaN > 1` is false). -/
def widthGtOne (w : Option Int) : Bool :=
  match w with
  | some x => decide (1 < x)
  | none => false

/-- The per-bit signal built by the loop body. -/
def mkBitSignal (base : String) (hi i : Int) (parent : Signal) : Signal :=
  { name := some (bitKey base i), width := some 1
    wave := mkBitWave parent.wave hi i, hierarchy := parent.hierarchy }

/-- The expansion loop `for (let i = low; i <= high; i++) { … }`:
insert one synthetic per-bit signal per index. -/
def expandedBits (m : SigMap) (sig : Signal) (base : String) (hi lo : Int) : SigMap :=
  (intRange lo hi).foldl
    (fun m2 i => mapInsert m2 (bitKey base i) (mkBitSignal base hi i sig)) m

/-- The body of the `Object.values(signals).forEach` post-processing for
one signal: expand a multi-bit signal with a bracketed name into per-bit
signals. `none` models the `TypeError` thrown when `signal.name` is the
JS `undefined` (a malformed `$var` line) and `.includes` is called on it. -/
def expandOne (m : SigMap) (sig : Signal) : Option SigMap :=
  if widthGtOne sig.width then
    match sig.name with
    | none => none
    | some nm =>
      if strContains nm '[' then
        let base := String.mk ((splitOnChar '[' nm.toList).headD [])
        match bracketCapture nm.toList with
        | none => some m
        | some rng =>
          let rparts := splitOnChar ':' rng
          let high := jsNumber (String.mk (rparts.headD []))
          let low := (rparts.get? 1).map (fun l => jsNumber (String.mk l))
          match high, low with
          | some h, some (some l) =>
            if l ≤ h then some (expandedBits m sig base h l)
            else some m
          | _, _ => some m
      else some m
  else some m

/-- The whole `forEach` over a snapshot of `Object.values(signals)`
(taken before any per-bit insertion), with the exception propagated. -/
def expandAll (st : ParserState) : Option SigMap :=
  st.signals.foldl (fun acc e => acc.bind (fun m => expandOne m e.2)) (some st.signals)

/-- `Math.pow(10, e)` for an integer exponent, as an exact rational. -/
def pow10 (e : Int) : ℚ :=
  (10 : ℚ) ^ e

/-- Everything after the line loop ends (vcdParser.ts lines 76-105):
`maxCycles = Math.ceil(maxTime / Math.pow(10, -timescale))`, the bus
expansion, and the resolved document with
`timescale: Math.pow(10, -timescale)`. -/
def postProcessState (st : ParserState) : Option VCDData :=
  (expandAll st).map (fun m =>
    { signals := m.map (·.2)
      timescale := pow10 (-st.timescale)
      maxCycles := st.maxTime.map (fun t => ⌈(t : ℚ) / pow10 (-st.timescale)⌉) })

/-- `parseVCD`: split into lines, run the chunked loop (chunk size
10,000 = 9999 + 1), post-process. `none` models a rejected promise. -/
def parseVCD (text : String) : Option VCDData :=
  postProcessState (processChunk 9999 initState (splitLines text))

/-- The same parse with a single unchunked pass over the lines. -/
def singleParse (text : String) : Option VCDData :=
  postProcessState (runLines initState (splitLines text))

/-- A chunked parse with arbitrary chunk size `c + 1`. -/
def parseVCDChunked (c : Nat) (text : String) : Option VCDData :=
  postProcessState (processChunk c initState (splitLines text))

/-! ### Hover value resolution
(WaveformViewer.tsx, `handleMouseMove`, lines 440-443) -/

/-- The test `t > time` of the `find` callback, on a possibly-`NaN`
wave time against the (real-valued) query time. -/
def timeGtQ (t : Option Int) (q : ℚ) : Bool :=
  match t with
  | some x => decide (q < (x : ℚ))
  | none => false

/-- `const wavePoint = signal.wave.find(([t]) => t > time);`
`wavePoint ? wavePoint[1] : signal.wave[signal.wave.length - 1]?.[1] ?? "Unknown"`. -/
def hoverValue (wave : List (Option Int × Option String)) (time : ℚ) : Option String :=
  match wave.find? (fun e => timeGtQ e.1 time) with
  | some e => e.2
  | none => some (((wave.getLast?).bind (·.2)).getD "Unknown")

/-! ### Spec-side characterisations used by the claims -/

/-- The parsed timestamp of one line, when that line is a timestamp line
(a line reaches the `#` branch of the dispatch exactly when its trimmed
form starts with `#`). -/
def timestampToken (l : String) : Option (Option Int) :=
  let t := jsTrim l
  if strStartsWith t "#" then some (jsParseInt (String.mk (t.toList.drop 1)))
  else none

/-- The parsed `#`-line timestamps of an input, in order of appearance. -/
def timestampTokens (text : String) : List (Option Int) :=
  (splitLines text).filterMap timestampToken

/-- The running JS `Math.max` over the timestamps, started at `0` —
the value held by `maxTime` at the end of the scan. -/
def specMaxTime (text : String) : Option Int :=
  (timestampTokens text).foldl jsMaxN (some 0)

/-- The exponent the Timescale Resolver produced for one line, when that
line is a `$timescale` line with a token after the keyword. -/
def tsTokenExp (l : String) : Option Int :=
  let t := jsTrim l
  if strStartsWith t "$timescale" && 1 < (jsSplitWs t).length then
    some (parseTimescale ((jsSplitWs t).getD 1 ""))
  else none

/-- The exponent retained at the end of the scan: the resolver's value
for the last applicable `$timescale` line, or `0` if there is none. -/
def specLastExp (text : String) : Int :=
  (((splitLines text).reverse).findSome? tsTokenExp).getD 0

/-- The signals accumulated by the plain scan (before post-processing). -/
def scanSignals (text : String) : List Signal :=
  (runLines initState (splitLines text)).signals.map (·.2)

/-- `sig` is one of the synthetic per-bit signals derivable from
`parent` by the bus expansion. -/
def BitDerived (sig parent : Signal) : Prop :=
  ∃ base hi i, sig = mkBitSignal base hi i parent

/-- Wave entry times compare `≤` (both must be defined). -/
def entryTimeLe (a b : Option Int × Option String) : Prop :=
  ∃ x y, a.1 = some x ∧ b.1 = some y ∧ x ≤ y

/-- Wave entry times compare `<` strictly (both must be defined); a wave
that is `Pairwise entryTimeLt` is sorted ascending with at most one
entry per distinct time. -/
def entryTimeLt (a b : Option Int × Option String) : Prop :=
  ∃ x y, a.1 = some x ∧ b.1 = some y ∧ x < y

instance : DecidableRel entryTimeLe := by
  intro a b
  unfold entryTimeLe
  rcases a with ⟨ta, va⟩
  rcases b with ⟨tb, vb⟩
  cases ta with
  | none => exact isFalse (by simp)
  | some x =>
    cases tb with
    | none => exact isFalse (by simp)
    | some y => exact decidable_of_iff (x ≤ y) (by simp)

instance : DecidableRel entryTimeLt := by
  intro a b
  unfold entryTimeLt
  rcases a with ⟨ta, va⟩
  rcases b with ⟨tb, vb⟩
  cases ta with
  | none => exact isFalse (by simp)
  | some x =>
    cases tb with
    | none => exact isFalse (by simp)
    | some y => exact decidable_of_iff (x < y) (by simp)

/-! ### Basic lemmas about the line loop -/

theorem runLines_append (st : ParserState) (a b : List String) :
    runLines st (a ++ b) = runLines (runLines st a) b := by
  simp [runLines, List.foldl_append]

theorem processChunk_eq_runLines (c : Nat) (lines : List String) (st : ParserState) :
    processChunk c st lines = runLines st lines := by
  rw [processChunk]
  split
  next h =>
    cases lines with
    | nil => simp [runLines]
    | cons a as => simp at h
  next h =>
    rw [processChunk_eq_runLines c (lines.drop (c + 1)) (runLines st (lines.take (c + 1)))]
    rw [← runLines_append, List.take_append_drop]
termination_by lines.length
decreasing_by
  simp_wf
  cases lines with
  | nil => simp_all
  | cons a as => simp [List.length_drop]

theorem parseVCD_eq_singleParse (text : String) : parseVCD text = singleParse text := by
  unfold parseVCD singleParse
  rw [processChunk_eq_runLines]

theorem parseVCDChunked_eq_singleParse (c : Nat) (text : String) :
    parseVCDChunked c text = singleParse text := by
  unfold parseVCDChunked singleParse
  rw [processChunk_eq_runLines]

theorem postProcessState_timescale (st : ParserState) (m : SigMap)
    (h : expandAll st = some m) :
    (postProcessState st).map (·.timescale) = some (pow10 (-st.timescale)) := by
  simp [postProcessState, h]

theorem postProcessState_maxCycles (st : ParserState) (m : SigMap)
    (h : expandAll st = some m) :
    (postProcessState st).map (·.maxCycles) =
      some (st.maxTime.map (fun t => ⌈(t : ℚ) / pow10 (-st.timescale)⌉)) := by
  simp [postProcessState, h]

/-! ### First-character reasoning about the line dispatch -/

theorem startsWith_toList (s p : String) (h : strStartsWith s p = true) :
    ∃ u, s.toList = p.toList ++ u := by
  unfold strStartsWith at h
  have := List.isPrefixOf_iff_prefix.mp h
  exact this.imp (fun u hu => hu.symm)

theorem not_startsWith_fst (s p : String) (c0 : Char) (u : List Char) (d0 : Char)
    (v : List Char) (hs : s.toList = c0 :: u) (hp : p.toList = d0 :: v) (hne : c0 ≠ d0) :
    strStartsWith s p = false := by
  by_contra hc
  rw [Bool.not_eq_false] at hc
  obtain ⟨w, hw⟩ := startsWith_toList s p hc
  rw [hs, hp] at hw
  simp at hw
  exact hne hw.1

theorem not_startsWith_snd (s p : String) (c0 c1 : Char) (u : List Char) (d1 : Char)
    (v : List Char) (hs : s.toList = c0 :: c1 :: u) (hp : p.toList = c0 :: d1 :: v)
    (hne : c1 ≠ d1) : strStartsWith s p = false := by
  by_contra hc
  rw [Bool.not_eq_false] at hc
  obtain ⟨w, hw⟩ := startsWith_toList s p hc
  rw [hs, hp] at hw
  simp at hw
  exact hne hw.1

/-! ### Claim C8 — chunked parsing equals single-pass parsing -/

/-- Claim C8: for every input text and every chunk size (the parameter
`c` encodes chunk size `c + 1`, covering all sizes ≥ 1, including the
10,000 of `parseVCD` itself at `c = 9999`), processing the line list in
bounded chunks produces exactly the document of a single unchunked pass. -/
theorem chunked_parse_eq_unchunked (c : Nat) (text : String) :
    parseVCDChunked c text = singleParse text ∧ parseVCD text = singleParse text :=
  ⟨parseVCDChunked_eq_singleParse c text, parseVCD_eq_singleParse text⟩

/-! ### Claim C9 — the parser is supposed never to throw, but can -/

/-- Claim C9 (code bug): the empty input does yield a document with zero
signals, but `parseVCD` does not always return a document: on the
malformed line `$var wire 4 x` (width 4 > 1, name token missing) the
post-processing evaluates `signal.name.includes("[")` with
`signal.name === undefined` and throws a `TypeError`, so the promise
never resolves — modelled here by the parse returning `none`. -/
theorem parseVCD_crashes_on_nameless_var :
    parseVCD "$var wire 4 x" = none ∧ (parseVCD "").map (·.signals) = some [] := by
  constructor
  · rw [parseVCD_eq_singleParse]
    decide
  · rw [parseVCD_eq_singleParse]
    decide

/-! ### Counterexamples for claims C1-C5 and C7 -/

/-- Claim C1 is false as stated: for the parsed signal with wave
`[(0,"0"), (10,"1")]` and query time `5` strictly between the two
entries, hover resolution returns `"1"` — the value of the *next*
change (the first entry with time > 5) — not the earlier entry's `"0"`. -/
theorem hover_between_changes_counterexample :
    (parseVCD "$var wire 1 ! a $end\n0!\n#10\n1!").map
        (fun d => d.signals.map (fun s => hoverValue s.wave 5)) = some [some "1"] ∧
    (some "1" : Option String) ≠ some "0" := by
  constructor
  · rw [parseVCD_eq_singleParse]
    decide
  · decide

/-- Claim C2 is false as stated: the parser inserts no `(0, '0'*width)`
entry, so after `#5` / `1!` the signal's first wave entry has time 5,
not 0. -/
theorem first_wave_time_counterexample :
    (parseVCD "$var wire 1 ! a $end\n#5\n1!").map
        (fun d => d.signals.map (fun s => s.wave.head?.map (·.1))) =
      some [some (some 5)] ∧
    (some (some 5) : Option (Option Int)) ≠ some (some 0) := by
  constructor
  · rw [parseVCD_eq_singleParse]
    decide
  · decide

/-- Claim C3 is false as stated: `b1 #` for the width-4 signal with id
`#` stores the raw bitstring `"1"`, not the left-padded `"0001"`. -/
theorem bline_padding_counterexample :
    (parseVCD "$var wire 4 # SW $end\nb1 #").map
        (fun d => d.signals.map (·.wave)) = some [[(some 0, some "1")]] ∧
    (some "1" : Option String) ≠ some "0001" := by
  constructor
  · rw [parseVCD_eq_singleParse]
    decide
  · decide

/-- Claim C5 is false as stated: with out-of-order and repeated `#`
timestamps the wave is exactly the emission-ordered list
`[(10,"1"), (10,"1"), (5,"0")]`, which is neither sorted ascending nor
duplicate-free. -/
theorem wave_sorted_counterexample :
    (parseVCD "$var wire 1 ! a $end\n#10\n1!\n#10\n1!\n#5\n0!").map
        (fun d => d.signals.map (·.wave)) =
      some [[(some 10, some "1"), (some 10, some "1"), (some 5, some "0")]] ∧
    ¬ List.Pairwise entryTimeLt
        [((some 10 : Option Int), (some "1" : Option String)),
         (some 10, some "1"), (some 5, some "0")] := by
  constructor
  · rw [parseVCD_eq_singleParse]
    decide
  · decide

/-! ### Values of the signal map under insertion and expansion -/

theorem mem_values_mapInsert (m : SigMap) (k : String) (v : Signal) (x : Signal)
    (hx : x ∈ (mapInsert m k v).map (·.2)) : x ∈ m.map (·.2) ∨ x = v := by
  unfold mapInsert at hx
  split at hx
  · rcases List.mem_map.mp hx with ⟨e, he, hev⟩
    rcases List.mem_map.mp he with ⟨e0, he0, he0e⟩
    by_cases hk : e0.1 = k
    · rw [if_pos hk] at he0e
      right
      rw [← hev, ← he0e]
    · rw [if_neg hk] at he0e
      left
      rw [← hev, ← he0e]
      exact List.mem_map_of_mem _ he0
  · rcases List.mem_map.mp hx with ⟨e, he, hev⟩
    rcases List.mem_append.mp he with h | h
    · left
      rw [← hev]
      exact List.mem_map_of_mem _ h
    · simp at h
      right
      rw [← hev, h]

theorem mem_values_expandedBits (m : SigMap) (sig : Signal) (base : String)
    (hi lo : Int) (x : Signal)
    (hx : x ∈ (expandedBits m sig base hi lo).map (·.2)) :
    x ∈ m.map (·.2) ∨ BitDerived x sig := by
  unfold expandedBits at hx
  suffices hgen : ∀ (is : List Int) (m0 : SigMap),
      x ∈ (is.foldl
        (fun m2 i => mapInsert m2 (bitKey base i) (mkBitSignal base hi i sig)) m0).map (·.2) →
      x ∈ m0.map (·.2) ∨ BitDerived x sig by
    exact hgen (intRange lo hi) m hx
  intro is
  induction is with
  | nil => intro m0 h; exact Or.inl h
  | cons i is ih =>
    intro m0 h
    rw [List.foldl_cons] at h
    rcases ih _ h with h2 | h2
    · rcases mem_values_mapInsert _ _ _ _ h2 with h3 | h3
      · exact Or.inl h3
      · exact Or.inr ⟨base, hi, i, h3⟩
    · exact Or.inr h2

theorem expandOne_cases (m m2 : SigMap) (s : Signal) (h : expandOne m s = some m2) :
    m2 = m ∨ ∃ base hi lo, m2 = expandedBits m s base hi lo := by
  simp only [expandOne] at h
  split at h
  · split at h
    · simp at h
    · split at h
      · split at h
        · exact Or.inl (Option.some_inj.mp h).symm
        · split at h
          · split at h
            · exact Or.inr ⟨_, _, _, (Option.some_inj.mp h).symm⟩
            · exact Or.inl (Option.some_inj.mp h).symm
          · exact Or.inl (Option.some_inj.mp h).symm
      · exact Or.inl (Option.some_inj.mp h).symm
  · exact Or.inl (Option.some_inj.mp h).symm

theorem expandOne_mem (m m2 : SigMap) (s : Signal) (x : Signal)
    (h : expandOne m s = some m2) (hx : x ∈ m2.map (·.2)) :
    x ∈ m.map (·.2) ∨ BitDerived x s := by
  rcases expandOne_cases m m2 s h with h2 | ⟨base, hi, lo, h2⟩
  · exact Or.inl (by rw [← h2]; exact hx)
  · exact mem_values_expandedBits m s base hi lo x (by rw [← h2]; exact hx)

theorem expandBind_none (es : List (String × Signal)) :
    es.foldl (fun acc e => acc.bind (fun mm => expandOne mm e.2)) none = none := by
  induction es with
  | nil => rfl
  | cons e es ih => simpa [Option.bind] using ih

theorem expandFold_mem (es : List (String × Signal)) (m0 m : SigMap)
    (h : es.foldl (fun acc e => acc.bind (fun mm => expandOne mm e.2)) (some m0) = some m)
    (x : Signal) (hx : x ∈ m.map (·.2)) :
    x ∈ m0.map (·.2) ∨ ∃ e ∈ es, BitDerived x e.2 := by
  induction es generalizing m0 with
  | nil =>
    simp at h
    exact Or.inl (by rw [h]; exact hx)
  | cons e es ih =>
    rw [List.foldl_cons] at h
    cases he1 : expandOne m0 e.2 with
    | none =>
      rw [show (some m0).bind (fun mm => expandOne mm e.2) = expandOne m0 e.2 from rfl,
        he1, expandBind_none] at h
      exact absurd h (by simp)
    | some m1 =>
      rw [show (some m0).bind (fun mm => expandOne mm e.2) = expandOne m0 e.2 from rfl,
        he1] at h
      rcases ih m1 h with h2 | ⟨e2, he2, hbd⟩
      · rcases expandOne_mem m0 m1 e.2 x he1 h2 with h3 | h3
        · exact Or.inl h3
        · exact Or.inr ⟨e, List.mem_cons_self e es, h3⟩
      · exact Or.inr ⟨e2, List.mem_cons_of_mem e he2, hbd⟩

/-! ### Claim C2 (amended) — no time-0 entry is inserted -/

/-- Claim C2 (amended): the post-processing never inserts a
`(0, '0'*width)` entry. Every signal of the returned document is either
exactly a signal accumulated during the line scan — whose wave is just
the appended value changes, possibly empty or starting at a time > 0 —
or a width-1 per-bit expansion of such a signal. -/
theorem parsed_signals_scan_or_bit (text : String) (doc : VCDData)
    (h : parseVCD text = some doc) :
    ∀ sig ∈ doc.signals,
      sig ∈ scanSignals text ∨ ∃ parent ∈ scanSignals text, BitDerived sig parent := by
  intro sig hsig
  rw [parseVCD_eq_singleParse] at h
  unfold singleParse postProcessState at h
  rcases Option.map_eq_some'.mp h with ⟨m, hm, hdoc⟩
  rw [← hdoc] at hsig
  simp only at hsig
  unfold expandAll at hm
  rcases expandFold_mem _ _ _ hm sig hsig with h1 | ⟨e, he, hbd⟩
  · exact Or.inl h1
  · exact Or.inr ⟨e.2, List.mem_map_of_mem _ he, hbd⟩

def egScanOrBit : String := "$var wire 1 ! a $end\n#5\n1!"

def docScanOrBit : VCDData :=
  (singleParse egScanOrBit).getD { signals := [], timescale := 0, maxCycles := none }

theorem parsed_signals_scan_or_bit_witness :
    parseVCD egScanOrBit = some docScanOrBit ∧
    ∀ sig ∈ docScanOrBit.signals,
      sig ∈ scanSignals egScanOrBit ∨
        ∃ parent ∈ scanSignals egScanOrBit, BitDerived sig parent := by
  have h : parseVCD egScanOrBit = some docScanOrBit :=
    (parseVCD_eq_singleParse egScanOrBit).trans rfl
  exact ⟨h, parsed_signals_scan_or_bit egScanOrBit docScanOrBit h⟩

/-! ### Claim C4 — the timescale field -/

theorem findSome?_append {α β : Type} (a b : List α) (f : α → Option β) :
    (a ++ b).findSome? f =
      match a.findSome? f with
      | some v => some v
      | none => b.findSome? f := by
  induction a with
  | nil => simp
  | cons x xs ih =>
    rw [List.cons_append, List.findSome?_cons, List.findSome?_cons]
    cases f x <;> simp [ih]

theorem startsWith_ts_not_var (s : String) (h : strStartsWith s "$timescale" = true) :
    strStartsWith s "$var" = false := by
  obtain ⟨u, hu⟩ := startsWith_toList s "$timescale" h
  have e1 : "$timescale".toList = '$' :: 't' :: "imescale".toList := rfl
  rw [e1] at hu
  exact not_startsWith_snd s "$var" '$' 't' ("imescale".toList ++ u) 'v' "ar".toList
    (by simpa using hu) rfl (by decide)

theorem stepLine_timescale (st : ParserState) (l : String) :
    (stepLine st l).timescale = (tsTokenExp l).getD st.timescale := by
  by_cases h2 : strStartsWith (jsTrim l) "$timescale" = true
  · have h1 : strStartsWith (jsTrim l) "$var" = false := startsWith_ts_not_var _ h2
    simp only [stepLine, tsTokenExp, h1, h2, Bool.false_eq_true, if_false, if_true,
      Bool.true_and]
    split
    next hlen => simp [hlen]
    next hlen => simp [hlen]
  · have ht : tsTokenExp l = none := by
      simp only [tsTokenExp]
      rw [if_neg]
      simp [h2]
    rw [ht, Option.getD_none]
    simp only [stepLine]
    split_ifs <;> simp_all

theorem runLines_timescale (lines : List String) (st : ParserState) :
    (runLines st lines).timescale =
      (lines.reverse.findSome? tsTokenExp).getD st.timescale := by
  induction lines generalizing st with
  | nil => simp [runLines]
  | cons l ls ih =>
    rw [show runLines st (l :: ls) = runLines (stepLine st l) ls from rfl, ih]
    rw [List.reverse_cons, findSome?_append]
    cases h : ls.reverse.findSome? tsTokenExp with
    | some v => simp
    | none =>
      simp only [Option.getD_none]
      rw [stepLine_timescale]
      simp [List.findSome?_cons]
      cases tsTokenExp l <;> simp

/-- Claim C4 (amended): the `timescale` field of the returned document is
`Math.pow(10, -timescale)`, i.e. `10^(−exponent)` — the *reciprocal* of
the claimed `10^exponent` — where the exponent is the Timescale
Resolver's value for the last applicable `$timescale` line (`0` when
there is none). -/
theorem parseVCD_timescale_field (text : String) (doc : VCDData)
    (h : parseVCD text = some doc) :
    doc.timescale = pow10 (-(specLastExp text)) := by
  rw [parseVCD_eq_singleParse] at h
  unfold singleParse postProcessState at h
  rcases Option.map_eq_some'.mp h with ⟨m, hm, hdoc⟩
  rw [← hdoc]
  simp only
  unfold specLastExp
  rw [runLines_timescale]
  rfl

def egTimescale : String := "$timescale 100ps $end"

def docTimescale : VCDData :=
  (singleParse egTimescale).getD { signals := [], timescale := 0, maxCycles := none }

theorem parseVCD_timescale_field_witness :
    parseVCD egTimescale = some docTimescale ∧
    docTimescale.timescale = pow10 (-(specLastExp egTimescale)) := by
  have h : parseVCD egTimescale = some docTimescale :=
    (parseVCD_eq_singleParse egTimescale).trans rfl
  exact ⟨h, parseVCD_timescale_field egTimescale docTimescale h⟩

/-- Claim C4 is false as stated: for `$timescale 10ns $end` the resolver
yields exponent `-8`, and the document's `timescale` field is
`pow10 8 = 10^8` — not the claimed `10^exponent = 10^(-8)`. -/
theorem timescale_sign_counterexample :
    parseTimescale "10ns" = -8 ∧
    (parseVCD "$timescale 10ns $end").map (·.timescale) = some (pow10 8) ∧
    pow10 8 ≠ pow10 (-8) := by
  refine ⟨by decide, ?_, ?_⟩
  · rw [parseVCD_eq_singleParse]
    unfold singleParse
    rw [postProcessState_timescale _ []
      (by decide : expandAll (runLines initState (splitLines "$timescale 10ns $end")) = some [])]
    have hts : (runLines initState (splitLines "$timescale 10ns $end")).timescale = -8 := by
      decide
    rw [hts]
    norm_num
  · norm_num [pow10]

/-! ### Claim C7 — the maxCycles field -/

theorem stepLine_maxTime (st : ParserState) (l : String) :
    (stepLine st l).maxTime =
      match timestampToken l with
      | some tok => jsMaxN st.maxTime tok
      | none => st.maxTime := by
  by_cases hh : strStartsWith (jsTrim l) "#" = true
  · obtain ⟨u, hu⟩ := startsWith_toList _ _ hh
    have hu2 : (jsTrim l).toList = '#' :: u := by simpa using hu
    have h1 : strStartsWith (jsTrim l) "$var" = false :=
      not_startsWith_fst _ _ '#' u '$' "var".toList hu2 rfl (by decide)
    have h2 : strStartsWith (jsTrim l) "$timescale" = false :=
      not_startsWith_fst _ _ '#' u '$' "timescale".toList hu2 rfl (by decide)
    have h3 : strStartsWith (jsTrim l) "$scope" = false :=
      not_startsWith_fst _ _ '#' u '$' "scope".toList hu2 rfl (by decide)
    have h4 : strStartsWith (jsTrim l) "$upscope" = false :=
      not_startsWith_fst _ _ '#' u '$' "upscope".toList hu2 rfl (by decide)
    simp [stepLine, timestampToken, hh, h1, h2, h3, h4]
  · have ht : timestampToken l = none := by simp [timestampToken, hh]
    rw [ht]
    simp only [stepLine]
    split_ifs <;> simp_all

theorem runLines_maxTime (lines : List String) (st : ParserState) :
    (runLines st lines).maxTime =
      (lines.filterMap timestampToken).foldl jsMaxN st.maxTime := by
  induction lines generalizing st with
  | nil => simp [runLines]
  | cons l ls ih =>
    rw [show runLines st (l :: ls) = runLines (stepLine st l) ls from rfl, ih]
    cases h : timestampToken l with
    | some tok =>
      have hst := stepLine_maxTime st l
      rw [h] at hst
      simp only [List.filterMap_cons, h, List.foldl_cons, hst]
    | none =>
      have hst := stepLine_maxTime st l
      rw [h] at hst
      simp only [List.filterMap_cons, h, hst]

/-- Claim C7 (amended): `maxCycles` is
`ceil(maxTime / 10^(−exponent))` where `maxTime` is the *running JS
`Math.max` started at `0`* over the `parseInt` values of all `#` lines
(`NaN`-absorbing), not simply the largest `#<integer>` timestamp seen —
so negative timestamps are clamped away by the initial `0`, and an
unparsable `#` line poisons the result. -/
theorem parseVCD_maxCycles_formula (text : String) (doc : VCDData)
    (h : parseVCD text = some doc) :
    doc.maxCycles =
      (specMaxTime text).map (fun t => ⌈(t : ℚ) / pow10 (-(specLastExp text))⌉) := by
  rw [parseVCD_eq_singleParse] at h
  unfold singleParse postProcessState at h
  rcases Option.map_eq_some'.mp h with ⟨m, hm, hdoc⟩
  rw [← hdoc]
  simp only
  unfold specMaxTime timestampTokens specLastExp
  have h1 : (runLines initState (splitLines text)).maxTime =
      ((splitLines text).filterMap timestampToken).foldl jsMaxN (some 0) :=
    runLines_maxTime _ _
  have h2 : (runLines initState (splitLines text)).timescale =
      ((splitLines text).reverse.findSome? tsTokenExp).getD 0 :=
    runLines_timescale _ _
  rw [h1, h2]

def egMaxCycles : String := "$timescale 1ns $end\n#100"

def docMaxCycles : VCDData :=
  (singleParse egMaxCycles).getD { signals := [], timescale := 0, maxCycles := none }

theorem parseVCD_maxCycles_formula_witness :
    parseVCD egMaxCycles = some docMaxCycles ∧
    docMaxCycles.maxCycles =
      (specMaxTime egMaxCycles).map
        (fun t => ⌈(t : ℚ) / pow10 (-(specLastExp egMaxCycles))⌉) := by
  have h : parseVCD egMaxCycles = some docMaxCycles :=
    (parseVCD_eq_singleParse egMaxCycles).trans rfl
  exact ⟨h, parseVCD_maxCycles_formula egMaxCycles docMaxCycles h⟩

/-- Claim C7 is false as stated: for input `#-5` the only `#<integer>`
timestamp seen is `-5`, and the claim's formula gives
`ceil(-5 / 10^0) = -5`; but `maxTime` starts at `0` and is accumulated
with `Math.max`, so the code returns `maxCycles = 0`. -/
theorem maxCycles_negative_counterexample :
    timestampTokens "#-5" = [some (-5)] ∧
    (parseVCD "#-5").map (·.maxCycles) = some (some 0) ∧
    ⌈((-5 : Int) : ℚ) / pow10 (-(0 : Int))⌉ = -5 ∧
    (some (0 : Int) : Option Int) ≠ some (-5) := by
  refine ⟨by decide, ?_, ?_, by decide⟩
  · rw [parseVCD_eq_singleParse]
    unfold singleParse
    rw [postProcessState_maxCycles _ []
      (by decide : expandAll (runLines initState (splitLines "#-5")) = some [])]
    have hmx : (runLines initState (splitLines "#-5")).maxTime = some 0 := by decide
    have hts : (runLines initState (splitLines "#-5")).timescale = 0 := by decide
    rw [hmx, hts]
    norm_num [pow10]
  · norm_num [pow10, Int.ceil_eq_iff]

/-! ### Claim C3 — b-lines append the raw bitstring -/

theorem find?_map_update (m : SigMap) (k : String) (f : Signal → Signal)
    (sig : Signal) (h : sigLookup m k = some sig) :
    sigLookup (m.map (fun e => if e.1 = k then (e.1, f e.2) else e)) k = some (f sig) := by
  unfold sigLookup at h ⊢
  induction m with
  | nil => simp at h
  | cons e es ih =>
    rw [List.map_cons]
    by_cases hk : e.1 = k
    · rw [if_pos hk]
      rw [List.find?_cons_of_pos _ (by simpa using hk)]
      rw [List.find?_cons_of_pos _ (by simpa using hk)] at h
      simp at h ⊢
      rw [h]
    · rw [if_neg hk]
      rw [List.find?_cons_of_neg _ (by simpa using hk)]
      rw [List.find?_cons_of_neg _ (by simpa using hk)] at h
      exact ih h

theorem sigLookup_pushChange_self (m : SigMap) (k : String) (t : Option Int)
    (v : Option String) (sig : Signal) (h : sigLookup m k = some sig) :
    sigLookup (pushChange m k t v) k =
      some { sig with wave := sig.wave ++ [(t, v)] } := by
  unfold pushChange
  rw [if_pos (by rw [h]; rfl)]
  exact find?_map_update m k (fun s => { s with wave := s.wave ++ [(t, v)] }) sig h

/-- Claim C3 (amended): a `b<bitstring> <id>` line whose id names a known
signal appends `(currentTime, the raw bitstring)` to that signal's wave —
with no left-padding to the declared width. -/
theorem bline_appends_raw (st : ParserState) (line v id : String) (rest : List String)
    (sig : Signal)
    (hb : strStartsWith (jsTrim line) "b" = true)
    (htoks : jsSplitWs (String.mk ((jsTrim line).toList.drop 1)) = v :: id :: rest)
    (hsig : sigLookup st.signals id = some sig) :
    sigLookup (stepLine st line).signals id =
      some { sig with wave := sig.wave ++ [(st.currentTime, some v)] } := by
  obtain ⟨u, hu⟩ := startsWith_toList _ _ hb
  have hu2 : (jsTrim line).toList = 'b' :: u := by simpa using hu
  have h1 : strStartsWith (jsTrim line) "$var" = false :=
    not_startsWith_fst _ _ 'b' u '$' "var".toList hu2 rfl (by decide)
  have h2 : strStartsWith (jsTrim line) "$timescale" = false :=
    not_startsWith_fst _ _ 'b' u '$' "timescale".toList hu2 rfl (by decide)
  have h3 : strStartsWith (jsTrim line) "$scope" = false :=
    not_startsWith_fst _ _ 'b' u '$' "scope".toList hu2 rfl (by decide)
  have h4 : strStartsWith (jsTrim line) "$upscope" = false :=
    not_startsWith_fst _ _ 'b' u '$' "upscope".toList hu2 rfl (by decide)
  have h5 : strStartsWith (jsTrim line) "#" = false :=
    not_startsWith_fst _ _ 'b' u '#' [] hu2 rfl (by decide)
  have h6 : scalarMatch (jsTrim line) = false := by
    unfold scalarMatch
    rw [hu2]
    cases u with
    | nil => rfl
    | cons c1 u2 => simp
  simp only [stepLine, h1, h2, h3, h4, h5, h6, hb, Bool.false_eq_true, if_false, if_true]
  rw [htoks]
  simp only [List.getD_cons_zero, List.getD_cons_succ]
  exact sigLookup_pushChange_self _ _ _ _ _ hsig

def stBline : ParserState :=
  { signals := [("#", { name := some "SW", width := some 4, wave := [], hierarchy := [] })]
    currentTime := some 0, timescale := 0, maxTime := some 0, currentScope := [] }

theorem bline_appends_raw_witness :
    strStartsWith (jsTrim "b1 #") "b" = true ∧
    jsSplitWs (String.mk ((jsTrim "b1 #").toList.drop 1)) = "1" :: "#" :: [] ∧
    sigLookup stBline.signals "#" =
      some { name := some "SW", width := some 4, wave := [], hierarchy := [] } ∧
    sigLookup (stepLine stBline "b1 #").signals "#" =
      some { name := some "SW", width := some 4,
             wave := [(some 0, some "1")], hierarchy := [] } :=
  ⟨by decide, by decide, by decide,
    bline_appends_raw stBline "b1 #" "1" "#" []
      { name := some "SW", width := some 4, wave := [], hierarchy := [] }
      (by decide) (by decide) (by decide)⟩

/-! ### Claim C1 — hover returns the next entry's value -/

theorem find?_eq_get? {α : Type} (p : α → Bool) (l : List α) (k : Nat) (a : α)
    (hk : l.get? k = some a) (hpa : p a = true)
    (hbefore : ∀ j b, j < k → l.get? j = some b → p b = false) :
    l.find? p = some a := by
  induction l generalizing k with
  | nil => simp at hk
  | cons x xs ih =>
    cases k with
    | zero =>
      obtain rfl : x = a := by simpa using hk
      rw [List.find?_cons_of_pos _ hpa]
    | succ k2 =>
      have hx : p x = false := hbefore 0 x (Nat.succ_pos k2) rfl
      rw [List.find?_cons_of_neg _ (by simp [hx])]
      exact ih k2 (by simpa using hk)
        (fun j b hj hb => hbefore (j + 1) b (by omega) (by simpa using hb))

/-- Claim C1 (amended): for a query time `T` strictly between two
consecutive entries of a sorted, fully-timestamped wave, the hover
resolver returns the value of the *next* entry — the first wave entry
with time > T — not the held value of the earlier entry. -/
theorem hoverValue_returns_next_entry
    (wave : List (Option Int × Option String)) (ts : List Int) (T : ℚ) (i : Nat)
    (t1 t2 : Int)
    (htimes : wave.map (·.1) = ts.map some)
    (hsort : List.Pairwise (· ≤ ·) ts)
    (ht1 : ts.get? i = some t1) (ht2 : ts.get? (i + 1) = some t2)
    (hT1 : (t1 : ℚ) < T) (hT2 : T < (t2 : ℚ)) :
    hoverValue wave T = (wave.get? (i + 1)).bind (·.2) := by
  have hw2x : ∃ e2, wave.get? (i + 1) = some e2 ∧ e2.1 = some t2 := by
    have hm := congrArg (fun l => l.get? (i + 1)) htimes
    simp only [List.get?_map] at hm
    rw [ht2] at hm
    cases hw : wave.get? (i + 1) with
    | none => rw [hw] at hm; simp at hm
    | some e2 =>
      rw [hw] at hm
      simp at hm
      exact ⟨e2, rfl, hm⟩
  obtain ⟨e2, hw2, he2⟩ := hw2x
  have hfind : wave.find? (fun e => timeGtQ e.1 T) = some e2 := by
    apply find?_eq_get? _ _ (i + 1) e2 hw2
    · simp [timeGtQ, he2, hT2]
    · intro j b hj hb
      have hm := congrArg (fun l => l.get? j) htimes
      simp only [List.get?_map] at hm
      rw [hb] at hm
      cases htj : ts.get? j with
      | none => rw [htj] at hm; simp at hm
      | some tj =>
        rw [htj] at hm
        simp at hm
        have htj_le : tj ≤ t1 := by
          rcases Nat.lt_succ_iff_lt_or_eq.mp hj with hji | hji
          · obtain ⟨hjlen, hgetj⟩ := List.get?_eq_some.mp htj
            obtain ⟨hilen, hgeti⟩ := List.get?_eq_some.mp ht1
            have := List.pairwise_iff_get.mp hsort ⟨j, hjlen⟩ ⟨i, hilen⟩ hji
            rw [hgetj, hgeti] at this
            exact this
          · subst hji
            rw [ht1] at htj
            have he : t1 = tj := by simpa using htj
            exact le_of_eq he.symm
        have hlt : (tj : ℚ) < T := lt_of_le_of_lt (by exact_mod_cast htj_le) hT1
        simp [timeGtQ, hm]
        exact le_of_lt hlt
  unfold hoverValue
  rw [hfind, hw2]
  rfl

theorem hoverValue_returns_next_entry_witness :
    hoverValue [(some 0, some "lo"), (some 10, some "hi")] (5 : ℚ) =
      ([((some 0 : Option Int), (some "lo" : Option String)),
        (some 10, some "hi")].get? 1).bind (·.2) ∧
    hoverValue [(some 0, some "lo"), (some 10, some "hi")] (5 : ℚ) = some "hi" :=
  ⟨hoverValue_returns_next_entry
      [(some 0, some "lo"), (some 10, some "hi")] [0, 10] 5 0 0 10
      (by decide) (by decide) rfl rfl (by decide) (by decide),
    by decide⟩

/-! ### Lookup lemmas for map insertion -/

theorem find?_append_or {α : Type} (a b : List α) (p : α → Bool) :
    (a ++ b).find? p =
      match a.find? p with
      | some x => some x
      | none => b.find? p := by
  induction a with
  | nil => simp
  | cons x xs ih =>
    by_cases hx : p x = true
    · rw [List.cons_append, List.find?_cons_of_pos _ hx, List.find?_cons_of_pos _ hx]
    · rw [List.cons_append, List.find?_cons_of_neg _ (by simpa using hx),
        List.find?_cons_of_neg _ (by simpa using hx), ih]

theorem find?_replace_self (m : SigMap) (k : String) (v : Signal)
    (hany : m.any (fun e => e.1 = k) = true) :
    (m.map (fun e => if e.1 = k then (k, v) else e)).find?
      (fun e => e.1 = k) = some (k, v) := by
  induction m with
  | nil => simp at hany
  | cons e es ih =>
    by_cases hk : e.1 = k
    · rw [List.map_cons, if_pos hk, List.find?_cons_of_pos _ (by simp)]
    · rw [List.map_cons, if_neg hk, List.find?_cons_of_neg _ (by simpa using hk)]
      apply ih
      simpa [hk] using hany

theorem sigLookup_mapInsert_self (m : SigMap) (k : String) (v : Signal) :
    sigLookup (mapInsert m k v) k = some v := by
  unfold mapInsert sigLookup
  split
  next hany =>
    rw [find?_replace_self m k v hany]
    rfl
  next hany =>
    rw [find?_append_or]
    have hnone : m.find? (fun e => decide (e.1 = k)) = none := by
      rw [List.find?_eq_none]
      intro x hx
      simp only [Bool.not_eq_true, decide_eq_false_iff_not]
      intro hxk
      exact hany (List.any_eq_true.mpr ⟨x, hx, by simpa using hxk⟩)
    rw [hnone]
    simp

theorem find?_replace_other (m : SigMap) (k k2 : String) (v : Signal) (hne : k2 ≠ k) :
    (m.map (fun e => if e.1 = k then (k, v) else e)).find? (fun e => e.1 = k2) =
      m.find? (fun e => e.1 = k2) := by
  induction m with
  | nil => simp
  | cons e es ih =>
    by_cases hk : e.1 = k
    · rw [List.map_cons, if_pos hk]
      rw [List.find?_cons_of_neg _ (by simp; exact fun h => hne h.symm),
        List.find?_cons_of_neg _ (by simp; rw [hk]; exact fun h => hne h.symm)]
      exact ih
    · by_cases hk2 : e.1 = k2
      · rw [List.map_cons, if_neg hk, List.find?_cons_of_pos _ (by simpa using hk2),
          List.find?_cons_of_pos _ (by simpa using hk2)]
      · rw [List.map_cons, if_neg hk, List.find?_cons_of_neg _ (by simpa using hk2),
          List.find?_cons_of_neg _ (by simpa using hk2)]
        exact ih

theorem sigLookup_mapInsert_ne (m : SigMap) (k k2 : String) (v : Signal)
    (hne : k2 ≠ k) : sigLookup (mapInsert m k v) k2 = sigLookup m k2 := by
  unfold mapInsert sigLookup
  split
  · rw [find?_replace_other m k k2 v hne]
  · rw [find?_append_or]
    cases hf : m.find? (fun e => decide (e.1 = k2)) with
    | some x => simp
    | none =>
      simp only
      rw [List.find?_cons_of_neg _ (by simpa using fun h => hne h.symm)]
      simp

theorem mapInsert_length_absent (m : SigMap) (k : String) (v : Signal)
    (h : sigLookup m k = none) : (mapInsert m k v).length = m.length + 1 := by
  unfold mapInsert
  rw [if_neg]
  · simp
  · intro hany
    rcases List.any_eq_true.mp hany with ⟨e, he, hek⟩
    unfold sigLookup at h
    rcases Option.map_eq_none'.mp h with hf
    rw [List.find?_eq_none] at hf
    exact absurd hek (by simpa using hf e he)

theorem mapInsert_length_present (m : SigMap) (k : String) (v : Signal)
    (h : (sigLookup m k).isSome) : (mapInsert m k v).length = m.length := by
  unfold mapInsert
  rw [if_pos]
  · simp
  · unfold sigLookup at h
    cases hf : m.find? (fun e => decide (e.1 = k)) with
    | none => rw [hf] at h; simp at h
    | some e =>
      have hmem := List.mem_of_find?_eq_some hf
      have hpe := List.find?_some hf
      exact List.any_eq_true.mpr ⟨e, hmem, hpe⟩

/-! ### Claim C10 — re-declaration of an identifier replaces the signal -/

theorem scalarMatch_shape (t : String) (h : scalarMatch t = true) :
    ∃ c0 c1 tl, t.toList = c0 :: c1 :: tl ∧
      (c0 = '0' ∨ c0 = '1' ∨ c0 = 'z' ∨ c0 = 'x' ∨ c0 = 'Z' ∨ c0 = 'X') := by
  unfold scalarMatch at h
  cases ht : t.toList with
  | nil => rw [ht] at h; simp at h
  | cons c0 rest =>
    cases rest with
    | nil => rw [ht] at h; simp at h
    | cons c1 tl =>
      rw [ht] at h
      simp at h
      exact ⟨c0, c1, tl, rfl, by tauto⟩

/-- Claim C10: a `$var` line carrying an identifier that may already be
declared replaces that identifier's signal wholesale — the stored signal
becomes the fresh one with the new line's name and width, an *empty* wave
(all earlier value changes discarded) and the current scope snapshot —
and a subsequent value-change line for the same identifier is routed to
the replacement signal (its wave ends up holding only the new change). -/
def freshVarSignal (p2 : String) (rest : List String)
    (scope : List (Option String)) : Signal :=
  { name := rest.get? 0, width := jsParseInt p2, wave := [], hierarchy := scope }

/-- Claim C10: a `$var` line carrying an identifier that may already be
declared replaces that identifier's signal wholesale — the stored signal
becomes `freshVarSignal`: the new line's name (5th token) and width
(parsed 3rd token), an *empty* wave (all earlier value changes
discarded) and the current scope snapshot — and a subsequent
value-change line for the same identifier is routed to the replacement
signal (its wave ends up holding only the new change). -/
theorem var_redeclaration_replaces
    (st : ParserState) (line l2 : String) (p0 p1 p2 p3 : String) (rest : List String)
    (hvar : strStartsWith (jsTrim line) "$var" = true)
    (hparts : jsSplitWs (jsTrim line) = p0 :: p1 :: p2 :: p3 :: rest)
    (hs2 : scalarMatch (jsTrim l2) = true)
    (hid2 : String.mk ((jsTrim l2).toList.drop 1) = p3) :
    sigLookup (stepLine st line).signals p3 =
      some (freshVarSignal p2 rest st.currentScope) ∧
    sigLookup (stepLine (stepLine st line) l2).signals p3 =
      some { freshVarSignal p2 rest st.currentScope with
             wave := [(st.currentTime, some (String.mk ((jsTrim l2).toList.take 1)))] } := by
  have hstep1 : stepLine st line =
      { st with signals := mapInsert st.signals p3 (freshVarSignal p2 rest st.currentScope) } := by
    simp only [stepLine, hvar, if_true]
    rw [hparts]
    rfl
  have hl1 : sigLookup (stepLine st line).signals p3 =
      some (freshVarSignal p2 rest st.currentScope) := by
    rw [hstep1]
    exact sigLookup_mapInsert_self _ _ _
  refine ⟨hl1, ?_⟩
  obtain ⟨c0, c1, tl, hsh, hc0⟩ := scalarMatch_shape _ hs2
  have h1 : strStartsWith (jsTrim l2) "$var" = false :=
    not_startsWith_fst _ _ c0 (c1 :: tl) '$' "var".toList hsh rfl
      (by rcases hc0 with h | h | h | h | h | h <;> subst h <;> decide)
  have h2 : strStartsWith (jsTrim l2) "$timescale" = false :=
    not_startsWith_fst _ _ c0 (c1 :: tl) '$' "timescale".toList hsh rfl
      (by rcases hc0 with h | h | h | h | h | h <;> subst h <;> decide)
  have h3 : strStartsWith (jsTrim l2) "$scope" = false :=
    not_startsWith_fst _ _ c0 (c1 :: tl) '$' "scope".toList hsh rfl
      (by rcases hc0 with h | h | h | h | h | h <;> subst h <;> decide)
  have h4 : strStartsWith (jsTrim l2) "$upscope" = false :=
    not_startsWith_fst _ _ c0 (c1 :: tl) '$' "upscope".toList hsh rfl
      (by rcases hc0 with h | h | h | h | h | h <;> subst h <;> decide)
  have h5 : strStartsWith (jsTrim l2) "#" = false :=
    not_startsWith_fst _ _ c0 (c1 :: tl) '#' [] hsh rfl
      (by rcases hc0 with h | h | h | h | h | h <;> subst h <;> decide)
  have hstep2 : stepLine (stepLine st line) l2 =
      { stepLine st line with signals := pushChange (stepLine st line).signals (String.mk ((jsTrim l2).toList.drop 1)) (stepLine st line).currentTime (some (String.mk ((jsTrim l2).toList.take 1))) } := by
    simp only [stepLine, h1, h2, h3, h4, h5, hs2, Bool.false_eq_true, if_false, if_true]
  rw [hstep2, hid2]
  have htime : (stepLine st line).currentTime = st.currentTime := by
    rw [hstep1]
  rw [htime]
  have hp := sigLookup_pushChange_self (stepLine st line).signals p3 st.currentTime
    (some (String.mk ((jsTrim l2).toList.take 1))) _ hl1
  simpa using hp

def stRedecl : ParserState :=
  { signals := [("!", { name := some "a", width := some 1
                        wave := [(some 1, some "1")], hierarchy := [] })]
    currentTime := some 2, timescale := 0, maxTime := some 2, currentScope := [] }

theorem var_redeclaration_replaces_witness :
    strStartsWith (jsTrim "$var wire 1 ! b $end") "$var" = true ∧
    jsSplitWs (jsTrim "$var wire 1 ! b $end") =
      "$var" :: "wire" :: "1" :: "!" :: ["b", "$end"] ∧
    scalarMatch (jsTrim "0!") = true ∧
    String.mk ((jsTrim "0!").toList.drop 1) = "!" ∧
    sigLookup (stepLine stRedecl "$var wire 1 ! b $end").signals "!" =
      some { name := some "b", width := jsParseInt "1", wave := []
             hierarchy := [] } ∧
    sigLookup (stepLine (stepLine stRedecl "$var wire 1 ! b $end") "0!").signals "!" =
      some { name := some "b", width := jsParseInt "1"
             wave := [(some 2, some "0")], hierarchy := [] } := by
  have h := var_redeclaration_replaces stRedecl "$var wire 1 ! b $end" "0!"
    "$var" "wire" "1" "!" ["b", "$end"]
    (by decide) (by decide) (by decide) (by decide)
  exact ⟨by decide, by decide, by decide, by decide, h.1, h.2⟩

/-! ### Claim C6 — bus expansion -/

theorem sigLookup_foldl_not_mem (is : List Int) (m : SigMap) (sig : Signal)
    (base : String) (hi : Int) (k : String)
    (hk : ∀ j ∈ is, bitKey base j ≠ k) :
    sigLookup
      (is.foldl (fun m2 j => mapInsert m2 (bitKey base j) (mkBitSignal base hi j sig)) m)
      k = sigLookup m k := by
  induction is generalizing m with
  | nil => rfl
  | cons j js ih =>
    rw [List.foldl_cons, ih _ (fun a ha => hk a (List.mem_cons_of_mem j ha))]
    exact sigLookup_mapInsert_ne _ _ _ _
      (fun h => hk j (List.mem_cons_self j js) h.symm)

theorem sigLookup_foldl_bits (sig : Signal) (base : String) (hi i : Int) :
    ∀ (is : List Int) (m : SigMap),
      (is.map (bitKey base)).Nodup → i ∈ is →
      sigLookup
        (is.foldl (fun m2 j => mapInsert m2 (bitKey base j) (mkBitSignal base hi j sig)) m)
        (bitKey base i) = some (mkBitSignal base hi i sig) := by
  intro is
  induction is with
  | nil =>
    intro m hnd hmem
    simp at hmem
  | cons j js ih =>
    intro m hnd hmem
    rw [List.map_cons, List.nodup_cons] at hnd
    rw [List.foldl_cons]
    rcases List.mem_cons.mp hmem with rfl | hmem2
    · have hnotin : ∀ j2 ∈ js, bitKey base j2 ≠ bitKey base i := by
        intro j2 hj2 heq
        exact hnd.1 (by rw [← heq]; exact List.mem_map_of_mem _ hj2)
      rw [sigLookup_foldl_not_mem js _ _ _ _ _ hnotin]
      exact sigLookup_mapInsert_self _ _ _
    · exact ih _ hnd.2 hmem2

theorem foldl_bits_length (sig : Signal) (base : String) (hi : Int) :
    ∀ (is : List Int) (m : SigMap),
      (is.map (bitKey base)).Nodup →
      (∀ j ∈ is, sigLookup m (bitKey base j) = none) →
      (is.foldl (fun m2 j => mapInsert m2 (bitKey base j) (mkBitSignal base hi j sig)) m).length =
        m.length + is.length := by
  intro is
  induction is with
  | nil =>
    intro m hnd hfresh
    simp
  | cons j js ih =>
    intro m hnd hfresh
    rw [List.map_cons, List.nodup_cons] at hnd
    rw [List.foldl_cons]
    have hfresh2 : ∀ a ∈ js,
        sigLookup (mapInsert m (bitKey base j) (mkBitSignal base hi j sig))
          (bitKey base a) = none := by
      intro a ha
      rw [sigLookup_mapInsert_ne _ _ _ _
        (fun h => hnd.1 (by rw [← h]; exact List.mem_map_of_mem _ ha))]
      exact hfresh a (List.mem_cons_of_mem j ha)
    rw [ih _ hnd.2 hfresh2]
    rw [mapInsert_length_absent _ _ _ (hfresh j (List.mem_cons_self j js))]
    rw [List.length_cons]
    omega

theorem mem_intRange (lo hi i : Int) : i ∈ intRange lo hi ↔ lo ≤ i ∧ i ≤ hi := by
  unfold intRange
  rw [List.mem_map]
  constructor
  · rintro ⟨k, hk, hki⟩
    rw [List.mem_range] at hk
    simp only [Int.ofNat_eq_coe] at hki
    omega
  · rintro ⟨h1, h2⟩
    refine ⟨(i - lo).toNat, ?_, ?_⟩
    · rw [List.mem_range]
      omega
    · simp only [Int.ofNat_eq_coe]
      omega

theorem intRange_length (lo hi : Int) :
    (intRange lo hi).length = (hi + 1 - lo).toNat := by
  unfold intRange
  rw [List.length_map, List.length_range]

/-- Claim C6: for a signal whose width exceeds 1 and whose name parses
(by the code's own `split`/regex extraction) as `base[hi:lo]` with
`lo ≤ hi`, the expansion step yields `expandedBits`: for each
`i ∈ [lo, hi]` the map gains the key `base[i]` bound to
`mkBitSignal base hi i` — width 1, wave = the parent's timestamps with
character `hi − i` of the parent's value string — every key that is not
one of the `base[i]` keeps its binding (in particular the parent signal
is retained alongside the expansion), and when the `base[i]` keys are
fresh exactly `hi − lo + 1` signals are added. -/
theorem busExpansion (m : SigMap) (sig : Signal) (w : Int) (nm base : String)
    (rng : List Char) (hi lo : Int)
    (hw : sig.width = some w) (hw1 : 1 < w)
    (hnm : sig.name = some nm)
    (hbr : strContains nm '[' = true)
    (hbase : String.mk ((splitOnChar '[' nm.toList).headD []) = base)
    (hrng : bracketCapture nm.toList = some rng)
    (hhi : jsNumber (String.mk ((splitOnChar ':' rng).headD [])) = some hi)
    (hlo : ((splitOnChar ':' rng).get? 1).map (fun l => jsNumber (String.mk l)) =
      some (some lo))
    (hlohi : lo ≤ hi)
    (hnd : ((intRange lo hi).map (bitKey base)).Nodup) :
    expandOne m sig = some (expandedBits m sig base hi lo) ∧
    (∀ i, lo ≤ i → i ≤ hi →
      sigLookup (expandedBits m sig base hi lo) (bitKey base i) =
        some (mkBitSignal base hi i sig)) ∧
    (∀ k s0, sigLookup m k = some s0 →
      (∀ i, lo ≤ i → i ≤ hi → k ≠ bitKey base i) →
      sigLookup (expandedBits m sig base hi lo) k = some s0) ∧
    ((∀ i, lo ≤ i → i ≤ hi → sigLookup m (bitKey base i) = none) →
      (expandedBits m sig base hi lo).length = m.length + (hi + 1 - lo).toNat) := by
  refine ⟨?_, ?_, ?_, ?_⟩
  · simp only [expandOne, widthGtOne, hw, hnm, hbr, hrng, hhi, hlo, hbase, if_true]
    rw [if_pos (decide_eq_true hw1), if_pos hlohi]
  · intro i h1 h2
    exact sigLookup_foldl_bits sig base hi i (intRange lo hi) m hnd
      ((mem_intRange lo hi i).mpr ⟨h1, h2⟩)
  · intro k s0 hk hne
    unfold expandedBits
    rw [sigLookup_foldl_not_mem (intRange lo hi) m sig base hi k ?hne2]
    · exact hk
    case hne2 =>
      intro j hj heq
      rcases (mem_intRange lo hi j).mp hj with ⟨hj1, hj2⟩
      exact hne j hj1 hj2 heq.symm
  · intro hfresh
    unfold expandedBits
    rw [foldl_bits_length sig base hi (intRange lo hi) m hnd ?fr, intRange_length]
    case fr =>
      intro j hj
      rcases (mem_intRange lo hi j).mp hj with ⟨hj1, hj2⟩
      exact hfresh j hj1 hj2

def swParent : Signal :=
  { name := some "SW[1:0]", width := some 2
    wave := [(some 0, some "10")], hierarchy := [] }

def swMap : SigMap := [("%", swParent)]

theorem busExpansion_witness :
    swParent.width = some 2 ∧ (1 : Int) < 2 ∧ swParent.name = some "SW[1:0]" ∧
    strContains "SW[1:0]" '[' = true ∧
    String.mk ((splitOnChar '[' "SW[1:0]".toList).headD []) = "SW" ∧
    bracketCapture "SW[1:0]".toList = some ['1', ':', '0'] ∧
    jsNumber (String.mk ((splitOnChar ':' ['1', ':', '0']).headD [])) = some 1 ∧
    ((splitOnChar ':' ['1', ':', '0']).get? 1).map (fun l => jsNumber (String.mk l)) =
      some (some 0) ∧
    (0 : Int) ≤ 1 ∧
    ((intRange 0 1).map (bitKey "SW")).Nodup ∧
    (expandOne swMap swParent = some (expandedBits swMap swParent "SW" 1 0) ∧
     (∀ i, 0 ≤ i → i ≤ 1 →
       sigLookup (expandedBits swMap swParent "SW" 1 0) (bitKey "SW" i) =
         some (mkBitSignal "SW" 1 i swParent)) ∧
     (∀ k s0, sigLookup swMap k = some s0 →
       (∀ i, 0 ≤ i → i ≤ 1 → k ≠ bitKey "SW" i) →
       sigLookup (expandedBits swMap swParent "SW" 1 0) k = some s0) ∧
     ((∀ i, 0 ≤ i → i ≤ 1 → sigLookup swMap (bitKey "SW" i) = none) →
       (expandedBits swMap swParent "SW" 1 0).length = swMap.length + ((1 : Int) + 1 - 0).toNat)) ∧
    (parseVCD "$var wire 2 % SW[1:0] $end\nb10 %").map (·.signals) =
      some [swParent,
        { name := some "SW[0]", width := some 1
          wave := [(some 0, some "0")], hierarchy := [] },
        { name := some "SW[1]", width := some 1
          wave := [(some 0, some "1")], hierarchy := [] }] := by
  refine ⟨by decide, by decide, by decide, by decide, by decide, by decide, by decide,
    by decide, by decide, by decide, ?_, ?_⟩
  · exact busExpansion swMap swParent 2 "SW[1:0]" "SW" ['1', ':', '0'] 1 0
      (by decide) (by decide) (by decide) (by decide) (by decide) (by decide)
      (by decide) (by decide) (by decide) (by decide)
  · rw [parseVCD_eq_singleParse]
    decide

/-! ### Claim C5 — waves are sorted when the timestamps are monotone -/

/-- All wave times are defined and bounded by `c`, and the wave is
nondecreasing in time. -/
def WaveBounded (c : Int) (w : List (Option Int × Option String)) : Prop :=
  (∀ p ∈ w, ∃ x, p.1 = some x ∧ x ≤ c) ∧ w.Pairwise entryTimeLe

theorem WaveBounded_nil (c : Int) : WaveBounded c [] :=
  ⟨fun p hp => absurd hp (List.not_mem_nil p), List.Pairwise.nil⟩

theorem WaveBounded_mono (c c2 : Int) (h : c ≤ c2)
    (w : List (Option Int × Option String)) (hw : WaveBounded c w) :
    WaveBounded c2 w := by
  refine ⟨fun p hp => ?_, hw.2⟩
  obtain ⟨x, hx, hxc⟩ := hw.1 p hp
  exact ⟨x, hx, le_trans hxc h⟩

theorem WaveBounded_append (c : Int) (w : List (Option Int × Option String))
    (v : Option String) (h : WaveBounded c w) :
    WaveBounded c (w ++ [(some c, v)]) := by
  constructor
  · intro p hp
    rcases List.mem_append.mp hp with hp2 | hp2
    · exact h.1 p hp2
    · simp at hp2
      exact ⟨c, by rw [hp2], le_refl c⟩
  · rw [List.pairwise_append]
    refine ⟨h.2, List.pairwise_singleton _ _, ?_⟩
    intro a ha b hb
    simp at hb
    obtain ⟨x, hx, hxc⟩ := h.1 a ha
    exact ⟨x, c, by rw [hx], by rw [hb], hxc⟩

theorem mem_mapInsert (m : SigMap) (k : String) (v : Signal) (e : String × Signal)
    (he : e ∈ mapInsert m k v) : e ∈ m ∨ e.2 = v := by
  unfold mapInsert at he
  split at he
  · rcases List.mem_map.mp he with ⟨e0, he0, he0e⟩
    by_cases hk : e0.1 = k
    · rw [if_pos hk] at he0e
      right
      rw [← he0e]
    · rw [if_neg hk] at he0e
      left
      rw [← he0e]
      exact he0
  · rcases List.mem_append.mp he with h2 | h2
    · exact Or.inl h2
    · simp at h2
      right
      rw [h2]

theorem mem_pushChange (m : SigMap) (k : String) (t : Option Int) (v : Option String)
    (e : String × Signal) (he : e ∈ pushChange m k t v) :
    e ∈ m ∨ ∃ e0 ∈ m, e.2 = { e0.2 with wave := e0.2.wave ++ [(t, v)] } := by
  unfold pushChange at he
  split at he
  · rcases List.mem_map.mp he with ⟨e0, he0, he0e⟩
    by_cases hk : e0.1 = k
    · rw [if_pos hk] at he0e
      right
      exact ⟨e0, he0, by rw [← he0e]⟩
    · rw [if_neg hk] at he0e
      left
      rw [← he0e]
      exact he0
  · exact Or.inl he

theorem stepLine_currentTime (st : ParserState) (l : String)
    (hh : ¬ strStartsWith (jsTrim l) "#" = true) :
    (stepLine st l).currentTime = st.currentTime := by
  simp only [stepLine]
  split_ifs <;> simp_all

theorem stepLine_hash_eq (st : ParserState) (l : String)
    (hh : strStartsWith (jsTrim l) "#" = true) :
    stepLine st l =
      { st with
        currentTime := jsParseInt (String.mk ((jsTrim l).toList.drop 1))
        maxTime := jsMaxN st.maxTime (jsParseInt (String.mk ((jsTrim l).toList.drop 1))) } := by
  obtain ⟨u, hu⟩ := startsWith_toList _ _ hh
  have hu2 : (jsTrim l).toList = '#' :: u := by simpa using hu
  have h1 : strStartsWith (jsTrim l) "$var" = false :=
    not_startsWith_fst _ _ '#' u '$' "var".toList hu2 rfl (by decide)
  have h2 : strStartsWith (jsTrim l) "$timescale" = false :=
    not_startsWith_fst _ _ '#' u '$' "timescale".toList hu2 rfl (by decide)
  have h3 : strStartsWith (jsTrim l) "$scope" = false :=
    not_startsWith_fst _ _ '#' u '$' "scope".toList hu2 rfl (by decide)
  have h4 : strStartsWith (jsTrim l) "$upscope" = false :=
    not_startsWith_fst _ _ '#' u '$' "upscope".toList hu2 rfl (by decide)
  simp [stepLine, hh, h1, h2, h3, h4]

theorem stepLine_preserves_bound (st : ParserState) (l : String) (c : Int)
    (h1 : st.currentTime = some c)
    (hww : ∀ e ∈ st.signals, WaveBounded c e.2.wave) :
    ∀ e ∈ (stepLine st l).signals, WaveBounded c e.2.wave := by
  intro e he
  simp only [stepLine] at he
  split_ifs at he <;>
    first
      | exact hww e (by simpa using he)
      | (rcases mem_mapInsert _ _ _ _ (by simpa using he) with h2 | h2
         · exact hww e h2
         · rw [h2]
           exact WaveBounded_nil c)
      | (rcases mem_pushChange _ _ _ _ _ (by simpa using he) with h2 | ⟨e0, he0, h2⟩
         · exact hww e h2
         · rw [h1] at h2
           rw [h2]
           exact WaveBounded_append c _ _ (hww e0 he0))

theorem scan_waves_sorted :
    ∀ (lines : List String) (st : ParserState) (c : Int) (ts : List Int),
      st.currentTime = some c →
      (∀ e ∈ st.signals, WaveBounded c e.2.wave) →
      lines.filterMap timestampToken = ts.map some →
      List.Chain' (· ≤ ·) (c :: ts) →
      ∀ e ∈ (runLines st lines).signals, e.2.wave.Pairwise entryTimeLe := by
  intro lines
  induction lines with
  | nil =>
    intro st c ts h1 h2 h3 h4 e he
    exact (h2 e he).2
  | cons l ls ih =>
    intro st c ts h1 h2 h3 h4
    rw [show runLines st (l :: ls) = runLines (stepLine st l) ls from rfl]
    by_cases hh : strStartsWith (jsTrim l) "#" = true
    · have htok : timestampToken l =
          some (jsParseInt (String.mk ((jsTrim l).toList.drop 1))) := by
        simp [timestampToken, hh]
      rw [List.filterMap_cons] at h3
      rw [htok] at h3
      cases ts with
      | nil => simp at h3
      | cons t0 ts2 =>
        simp only [List.map_cons] at h3
        injection h3 with hp hrest
        rw [stepLine_hash_eq st l hh]
        refine ih _ t0 ts2 ?_ ?_ hrest ?_
        · simpa using hp
        · intro e he
          exact WaveBounded_mono c t0 (List.chain'_cons.mp h4).1 _ (h2 e he)
        · exact (List.chain'_cons.mp h4).2
    · have htok : timestampToken l = none := by simp [timestampToken, hh]
      rw [List.filterMap_cons] at h3
      rw [htok] at h3
      refine ih (stepLine st l) c ts ?_ ?_ h3 h4
      · rw [stepLine_currentTime st l hh]
        exact h1
      · exact stepLine_preserves_bound st l c h1 h2

theorem mkBitWave_pairwise (w : List (Option Int × Option String)) (hi i : Int)
    (h : w.Pairwise entryTimeLe) : (mkBitWave w hi i).Pairwise entryTimeLe := by
  unfold mkBitWave
  refine List.Pairwise.map _ (fun a b hab => ?_) h
  rcases hab with ⟨x, y, hx, hy, hxy⟩
  exact ⟨x, y, by simpa using hx, by simpa using hy, hxy⟩

/-- Claim C5 (amended): the parser performs no re-sort and no
deduplication — waves hold the value changes in emission order. When
every `#` line's timestamp parses as an integer and the timestamp
sequence is nondecreasing starting from the initial time `0`, every
signal wave in the returned document is sorted nondecreasing in time
(`Pairwise entryTimeLe`); out-of-order inputs yield unsorted waves and a
signal changed twice at one time keeps duplicate timestamps. -/
theorem parsed_waves_sorted_of_monotone (text : String) (doc : VCDData) (ts : List Int)
    (h : parseVCD text = some doc)
    (hts : timestampTokens text = ts.map some)
    (hchain : List.Chain' (· ≤ ·) (0 :: ts)) :
    ∀ sig ∈ doc.signals, sig.wave.Pairwise entryTimeLe := by
  have hscan : ∀ e ∈ (runLines initState (splitLines text)).signals,
      e.2.wave.Pairwise entryTimeLe := by
    refine scan_waves_sorted (splitLines text) initState 0 ts rfl ?_ hts hchain
    intro e he
    simp [initState] at he
  intro sig hsig
  rw [parseVCD_eq_singleParse] at h
  unfold singleParse postProcessState at h
  rcases Option.map_eq_some'.mp h with ⟨m, hm, hdoc⟩
  rw [← hdoc] at hsig
  simp only at hsig
  unfold expandAll at hm
  rcases expandFold_mem _ _ _ hm sig hsig with h1 | ⟨e, he, base, hi, i, hbd⟩
  · rcases List.mem_map.mp h1 with ⟨e, he, rfl⟩
    exact hscan e he
  · rw [hbd]
    exact mkBitWave_pairwise _ hi i (hscan e he)

def egSorted : String := "$var wire 1 ! a $end\n#1\n1!\n#2\n0!"

def docSorted : VCDData :=
  (singleParse egSorted).getD { signals := [], timescale := 0, maxCycles := none }

theorem parsed_waves_sorted_of_monotone_witness :
    parseVCD egSorted = some docSorted ∧
    timestampTokens egSorted = [1, 2].map some ∧
    List.Chain' (· ≤ ·) ((0 : Int) :: [1, 2]) ∧
    ∀ sig ∈ docSorted.signals, sig.wave.Pairwise entryTimeLe := by
  have h : parseVCD egSorted = some docSorted :=
    (parseVCD_eq_singleParse egSorted).trans rfl
  exact ⟨h, by decide, by simp [List.chain'_cons],
    parsed_waves_sorted_of_monotone egSorted docSorted [1, 2] h (by decide)
      (by simp [List.chain'_cons])⟩
